import Mathlib

/-!
Verification of the peripheral-chaining and ROM-packing engine of
`src/buildmain.c` (DemandPeripherals/DPCore).

The program reads a description file: its first 8 physical lines are copied
(with the last character of each replaced by NUL) into a 2048-byte
enumerator-ROM image, and the remaining whitespace-delimited tokens name
peripheral types.  Each non-comment token is resolved against a static
registry (a bounded `strncmp` over `enumerators[]`), its invocation function
is called with the current slot number and pin cursor, its include name is
appended to the includes file, and its library name is appended to the ROM
image (with an overflow check `romindx > ENUMROMSZ`).  At end of input the
first 16*32 bytes of the ROM image are rendered as 16 hexadecimal
initialization records, each chunk of 32 bytes in reverse byte order.

C strings are modelled as `List Char` (NUL-free contents); bytes as `Nat`
values reduced mod 256 (a `char` cell of the ROM array).  Each peripheral
invocation function is modelled by its observable behaviour: the list of
external pin indices it assigns (the `PIN_xx` lines, in emission order) and
the pin cursor it returns.
-/

set_option linter.unusedVariables false
set_option maxRecDepth 2048

namespace DPCore

/-- Maximum name length for a peripheral (`#define PERILEN 20`). -/
def PERILEN : Nat := 20

/-- Maximum ROM string length (`#define ROMSTRLN 256`): `fgets` reads at most
`ROMSTRLN - 1 = 255` characters per header line. -/
def ROMSTRLN : Nat := 256

/-- Size of the enumerator ROM image (`#define ENUMROMSZ 2048`). -/
def ENUMROMSZ : Nat := 2048

/-- `perilist`: the enumerator itself; instantiates the control module and
assigns no external pins (`return(startpin + 0)`). -/
def perilist (addr startpin : Nat) (peri : List Char) : List Nat × Nat :=
  ([], startpin + 0)

/-- `bb4io`: buttons and LEDs on the board itself; no `PIN_xx` assignments
(`return(startpin + 0)`). -/
def bb4io (addr startpin : Nat) (peri : List Char) : List Nat × Nat :=
  ([], startpin + 0)

/-- `stepu`: assigns `PIN_startpin .. PIN_startpin+3` (coila..coild),
`return(startpin + 4)`. -/
def stepu (addr startpin : Nat) (peri : List Char) : List Nat × Nat :=
  ([startpin, startpin + 1, startpin + 2, startpin + 3], startpin + 4)

/-- `stepb`: assigns `PIN_startpin .. PIN_startpin+3` (ain1,ain2,bin1,bin2). -/
def stepb (addr startpin : Nat) (peri : List Char) : List Nat × Nat :=
  ([startpin, startpin + 1, startpin + 2, startpin + 3], startpin + 4)

/-- `dc2`: assigns `PIN_startpin .. PIN_startpin+3` (ain1,ain2,bin1,bin2). -/
def dc2 (addr startpin : Nat) (peri : List Char) : List Nat × Nat :=
  ([startpin, startpin + 1, startpin + 2, startpin + 3], startpin + 4)

/-- `pgen16`: assigns `PIN_startpin .. PIN_startpin+3` (pattern[0..3]). -/
def pgen16 (addr startpin : Nat) (peri : List Char) : List Nat × Nat :=
  ([startpin, startpin + 1, startpin + 2, startpin + 3], startpin + 4)

/-- `quad2`: reads `PIN_startpin .. PIN_startpin+3` (a1,a2,b1,b2). -/
def quad2 (addr startpin : Nat) (peri : List Char) : List Nat × Nat :=
  ([startpin, startpin + 1, startpin + 2, startpin + 3], startpin + 4)

/-- `qtr4`: assigns `PIN_startpin .. PIN_startpin+3` (q[0..3]). -/
def qtr4 (addr startpin : Nat) (peri : List Char) : List Nat × Nat :=
  ([startpin, startpin + 1, startpin + 2, startpin + 3], startpin + 4)

/-- `qtr8`: assigns `PIN_startpin .. PIN_startpin+7` (q[0..7]),
`return(startpin + 8)`. -/
def qtr8 (addr startpin : Nat) (peri : List Char) : List Nat × Nat :=
  ([startpin, startpin + 1, startpin + 2, startpin + 3,
    startpin + 4, startpin + 5, startpin + 6, startpin + 7], startpin + 8)

/-- `roten`: pins `startpin..startpin+2` read (btn,q1,q2), `startpin+3`
driven (led). -/
def roten (addr startpin : Nat) (peri : List Char) : List Nat × Nat :=
  ([startpin, startpin + 1, startpin + 2, startpin + 3], startpin + 4)

/-- `count4`: reads `PIN_startpin .. PIN_startpin+3` (a,b,c,d). -/
def count4 (addr startpin : Nat) (peri : List Char) : List Nat × Nat :=
  ([startpin, startpin + 1, startpin + 2, startpin + 3], startpin + 4)

/-- `servo4`: assigns `PIN_pin .. PIN_pin+3` (servo[0..3]). -/
def servo4 (addr pin : Nat) (peri : List Char) : List Nat × Nat :=
  ([pin, pin + 1, pin + 2, pin + 3], pin + 4)

/-- `ping4`: assigns `PIN_pin .. PIN_pin+3` (png[0..3]). -/
def ping4 (addr pin : Nat) (peri : List Char) : List Nat × Nat :=
  ([pin, pin + 1, pin + 2, pin + 3], pin + 4)

/-- `irio`: pins `pin..pin+2` driven (rxled,txled,irout), `pin+3` read
(irin). -/
def irio (addr pin : Nat) (peri : List Char) : List Nat × Nat :=
  ([pin, pin + 1, pin + 2, pin + 3], pin + 4)

/-- `rcrx`: pin `pin` read (rcin), `pin+1..pin+3` driven
(pktled,spare0,spare1). -/
def rcrx (addr pin : Nat) (peri : List Char) : List Nat × Nat :=
  ([pin, pin + 1, pin + 2, pin + 3], pin + 4)

/-- `rfob`: pins `pin,pin+1` read (rfdin,rssi), `pin+2,pin+3` driven
(pwml,pwmh). -/
def rfob (addr pin : Nat) (peri : List Char) : List Nat × Nat :=
  ([pin, pin + 1, pin + 2, pin + 3], pin + 4)

/-- `espi`: pins `pin..pin+2` driven (mosi,a,b), `pin+3` read (miso). -/
def espi (addr pin : Nat) (peri : List Char) : List Nat × Nat :=
  ([pin, pin + 1, pin + 2, pin + 3], pin + 4)

/-- `adc12`: pins `pin..pin+2` driven (mosi,a,b), `pin+3` read (miso). -/
def adc12 (addr pin : Nat) (peri : List Char) : List Nat × Nat :=
  ([pin, pin + 1, pin + 2, pin + 3], pin + 4)

/-- `ws2812`: assigns `PIN_pin .. PIN_pin+3` (led1..led4). -/
def ws2812 (addr pin : Nat) (peri : List Char) : List Nat × Nat :=
  ([pin, pin + 1, pin + 2, pin + 3], pin + 4)

/-- `out4`: assigns `PIN_pin .. PIN_pin+3` (bitout[0..3]). -/
def out4 (addr pin : Nat) (peri : List Char) : List Nat × Nat :=
  ([pin, pin + 1, pin + 2, pin + 3], pin + 4)

/-- `out4l`: assigns `PIN_pin .. PIN_pin+3` (bitout[0..3]). -/
def out4l (addr pin : Nat) (peri : List Char) : List Nat × Nat :=
  ([pin, pin + 1, pin + 2, pin + 3], pin + 4)

/-- `gpio4`: assigns `PIN_pin .. PIN_pin+3` (sbio[0..3]). -/
def gpio4 (addr pin : Nat) (peri : List Char) : List Nat × Nat :=
  ([pin, pin + 1, pin + 2, pin + 3], pin + 4)

/-- `in4`: reads `PIN_startpin .. PIN_startpin+3` (in[0..3]). -/
def in4 (addr startpin : Nat) (peri : List Char) : List Nat × Nat :=
  ([startpin, startpin + 1, startpin + 2, startpin + 3], startpin + 4)

/-- `watchdog2`: defined in the source but not registered in
`enumerators[]`; pins `pin..pin+3` (wd0in,wd0out,wd1in,wd1out). -/
def watchdog2 (addr pin : Nat) (peri : List Char) : List Nat × Nat :=
  ([pin, pin + 1, pin + 2, pin + 3], pin + 4)

/-- `out32`: assigns `PIN_startpin .. PIN_startpin+3` (pin2,pin4,pin6,pin8). -/
def out32 (addr startpin : Nat) (peri : List Char) : List Nat × Nat :=
  ([startpin, startpin + 1, startpin + 2, startpin + 3], startpin + 4)

/-- `lcd6`: assigns `PIN_startpin .. PIN_startpin+3` (pin2,pin4,pin6,pin8). -/
def lcd6 (addr startpin : Nat) (peri : List Char) : List Nat × Nat :=
  ([startpin, startpin + 1, startpin + 2, startpin + 3], startpin + 4)

/-- `io8`: pins `startpin..startpin+2` driven, `startpin+3` read. -/
def io8 (addr startpin : Nat) (peri : List Char) : List Nat × Nat :=
  ([startpin, startpin + 1, startpin + 2, startpin + 3], startpin + 4)

/-- `tif`: pins `startpin..startpin+2` driven, `startpin+3` read. -/
def tif (addr startpin : Nat) (peri : List Char) : List Nat × Nat :=
  ([startpin, startpin + 1, startpin + 2, startpin + 3], startpin + 4)

/-- `us8`: pins `startpin..startpin+2` driven, `startpin+3` read. -/
def us8 (addr startpin : Nat) (peri : List Char) : List Nat × Nat :=
  ([startpin, startpin + 1, startpin + 2, startpin + 3], startpin + 4)

/-- `in32`: pins `startpin..startpin+2` driven, `startpin+3` read. -/
def in32 (addr startpin : Nat) (peri : List Char) : List Nat × Nat :=
  ([startpin, startpin + 1, startpin + 2, startpin + 3], startpin + 4)

/-- `ei2c`: pins `pin..pin+2` driven, `pin+3` read. -/
def ei2c (addr pin : Nat) (peri : List Char) : List Nat × Nat :=
  ([pin, pin + 1, pin + 2, pin + 3], pin + 4)

/-- `null`: a null peripheral: instantiation only, no `PIN_xx` assignments,
`return(pin)`. -/
def null (addr pin : Nat) (peri : List Char) : List Nat × Nat :=
  ([], pin)

/-- `struct ENUMERATORS`: one registry entry. -/
structure ENUMERATORS where
  periname : List Char
  incname : List Char
  libname : List Char
  invoke : Nat → Nat → List Char → List Nat × Nat

/-- The registry table `enumerators[]`, in source order. -/
def enumerators : List ENUMERATORS :=
  [ { periname := "enumerator".toList, incname := "enumerator".toList, libname := "enumerator".toList, invoke := perilist },
    { periname := "bb4io".toList, incname := "bb4io".toList, libname := "bb4io".toList, invoke := bb4io },
    { periname := "servo4".toList, incname := "servo4".toList, libname := "servo4".toList, invoke := servo4 },
    { periname := "stepu".toList, incname := "stepu".toList, libname := "stepu".toList, invoke := stepu },
    { periname := "stepb".toList, incname := "stepb".toList, libname := "stepb".toList, invoke := stepb },
    { periname := "dc2".toList, incname := "dc2".toList, libname := "dc2".toList, invoke := dc2 },
    { periname := "aamp".toList, incname := "out4".toList, libname := "aamp".toList, invoke := out4 },
    { periname := "pgen16".toList, incname := "pgen16".toList, libname := "pgen16".toList, invoke := pgen16 },
    { periname := "pwmout4".toList, incname := "pgen16".toList, libname := "pwmout4".toList, invoke := pgen16 },
    { periname := "quad2".toList, incname := "quad2".toList, libname := "quad2".toList, invoke := quad2 },
    { periname := "qtr4".toList, incname := "qtr4".toList, libname := "qtr4".toList, invoke := qtr4 },
    { periname := "qtr8".toList, incname := "qtr8".toList, libname := "qtr8".toList, invoke := qtr8 },
    { periname := "roten".toList, incname := "roten".toList, libname := "roten".toList, invoke := roten },
    { periname := "count4".toList, incname := "count4".toList, libname := "count4".toList, invoke := count4 },
    { periname := "touch4".toList, incname := "count4".toList, libname := "touch4".toList, invoke := count4 },
    { periname := "ping4".toList, incname := "ping4".toList, libname := "ping4".toList, invoke := ping4 },
    { periname := "irio".toList, incname := "irio".toList, libname := "irio".toList, invoke := irio },
    { periname := "espi".toList, incname := "espi".toList, libname := "espi".toList, invoke := espi },
    { periname := "dac8".toList, incname := "espi".toList, libname := "dac8".toList, invoke := espi },
    { periname := "qpot".toList, incname := "espi".toList, libname := "qpot".toList, invoke := espi },
    { periname := "rtc".toList, incname := "espi".toList, libname := "rtc".toList, invoke := espi },
    { periname := "avr".toList, incname := "espi".toList, libname := "avr".toList, invoke := espi },
    { periname := "adc812".toList, incname := "adc12".toList, libname := "adc812".toList, invoke := adc12 },
    { periname := "slide4".toList, incname := "adc12".toList, libname := "slide4".toList, invoke := adc12 },
    { periname := "out4".toList, incname := "out4".toList, libname := "out4".toList, invoke := out4 },
    { periname := "out4l".toList, incname := "out4l".toList, libname := "out4l".toList, invoke := out4l },
    { periname := "ws2812".toList, incname := "ws2812".toList, libname := "ws2812".toList, invoke := ws2812 },
    { periname := "rly4".toList, incname := "out4l".toList, libname := "rly4".toList, invoke := out4l },
    { periname := "drv4".toList, incname := "out4".toList, libname := "drv3".toList, invoke := out4 },
    { periname := "hub4".toList, incname := "out4".toList, libname := "hub4".toList, invoke := out4 },
    { periname := "gpio4".toList, incname := "gpio4".toList, libname := "gpio4".toList, invoke := gpio4 },
    { periname := "out32".toList, incname := "out32".toList, libname := "out32".toList, invoke := out32 },
    { periname := "lcd6".toList, incname := "lcd6".toList, libname := "lcd6".toList, invoke := lcd6 },
    { periname := "in4".toList, incname := "in4".toList, libname := "in4".toList, invoke := in4 },
    { periname := "sw4".toList, incname := "in4".toList, libname := "sw4".toList, invoke := in4 },
    { periname := "io8".toList, incname := "io8".toList, libname := "io8".toList, invoke := io8 },
    { periname := "tif".toList, incname := "tif".toList, libname := "tif".toList, invoke := tif },
    { periname := "us8".toList, incname := "us8".toList, libname := "us8".toList, invoke := us8 },
    { periname := "in32".toList, incname := "in32".toList, libname := "in32".toList, invoke := in32 },
    { periname := "ei2c".toList, incname := "ei2c".toList, libname := "ei2c".toList, invoke := ei2c },
    { periname := "rcrx".toList, incname := "rcrx".toList, libname := "rcrx".toList, invoke := rcrx },
    { periname := "rfob".toList, incname := "rfob".toList, libname := "rfob".toList, invoke := rfob },
    { periname := "null".toList, incname := "null".toList, libname := "null".toList, invoke := null } ]

/-- `strncmp(s, t, n) == 0` for NUL-free strings: the first `n` characters
(or all of both strings, when either is shorter) agree. -/
def strncmpEq (n : Nat) (s t : List Char) : Bool :=
  s.take n == t.take n

/-- The registry scan of `main` (`for (i = 0; i < NPERI; i++) ...
strncmp(peri, enumerators[i].periname, PERILEN - 1)`), returning the index
of the first entry whose name matches under the bounded compare. -/
def lookupFrom (peri : List Char) : Nat → List ENUMERATORS → Option Nat
  | _i, [] => none
  | i, d :: rest =>
    if strncmpEq (PERILEN - 1) peri d.periname then some i
    else lookupFrom peri (i + 1) rest

/-- Index returned by the registry scan, `none` when `i == NPERI` is
reached (the fatal "Unknown peripheral" case). -/
def lookupIdx (peri : List Char) : Option Nat :=
  lookupFrom peri 0 enumerators

/-- The same registry scan, returning the matching entry itself. -/
def lookupDFrom (peri : List Char) : List ENUMERATORS → Option ENUMERATORS
  | [] => none
  | d :: rest =>
    if strncmpEq (PERILEN - 1) peri d.periname then some d
    else lookupDFrom peri rest

/-- The registry entry used by `main` for a token, if any. -/
def lookupD (peri : List Char) : Option ENUMERATORS :=
  lookupDFrom peri enumerators

/-- Modelled from the spec ("Lookup is exact-match against the full
registered name"): the index of the first registry entry whose `periname`
is string-equal to the token.  Reference definition for the refinement
claim about `lookupIdx`. -/
def exactFrom (peri : List Char) : Nat → List ENUMERATORS → Option Nat
  | _i, [] => none
  | i, d :: rest =>
    if peri = d.periname then some i
    else exactFrom peri (i + 1) rest

/-- Exact string-equality lookup over the registry (spec-side reference). -/
def lookupIdxExact (peri : List Char) : Option Nat :=
  exactFrom peri 0 enumerators

/-- The byte stored in a `char` cell of the ROM image for a character. -/
def charByte (c : Char) : Nat :=
  c.toNat % 256

/-- Bytes written by `sprintf(&rom[romindx], "%s%c", s, (char) 0)`: the
characters of `s` followed by one NUL byte. -/
def strBytes (s : List Char) : List Nat :=
  s.map charByte ++ [0]

/-- Bytes a header line contributes to the ROM image:
`romstr[strlen(romstr)-1] = 0` deletes the last character of the string
actually read (whatever it is), then the rest is appended NUL-terminated. -/
def headerLineBytes (line : List Char) : List Nat :=
  strBytes line.dropLast

/-- ROM bytes of the header phase: the 8 header lines appended in order,
each with its last character deleted, each NUL-terminated. -/
def headerRom (hdr : List (List Char)) : List Nat :=
  hdr.flatMap headerLineBytes

/-- Running `romindx` values recorded after each header-line append. -/
def headerOffs : List (List Char) → Nat → List Nat
  | [], _off => []
  | l :: rest, off =>
    (off + (headerLineBytes l).length) :: headerOffs rest (off + (headerLineBytes l).length)

/-- One processed peripheral instance: the slot number and pin cursor it was
invoked with, the registry entry it resolved to, and the observable result
of its invocation function. -/
structure PeriInstance where
  addr : Nat
  pinStart : Nat
  desc : ENUMERATORS
  pins : List Nat
  newPin : Nat

/-- State of the driver loop of `main`: slot counter, pin cursor, processed
instances, include lines written so far, ROM image content, the `romindx`
write offset, and the `romindx` value after each append (the trace used to
state the overflow-check property). -/
structure LoopState where
  slot : Nat
  pin : Nat
  insts : List PeriInstance
  incs : List (List Char)
  rom : List Nat
  romindx : Nat
  offs : List Nat

/-- Fatal conditions of the driver loop (each is an `exit(1)` in the
source). -/
inductive BuildErr where
  | notEnoughROMStrings
  | unknownPeri (tok : List Char)
  | romOverflow
  deriving DecidableEq

/-- Comment test of the driver loop: `if (peri[0] == '#') continue;`. -/
def isComment : List Char → Bool
  | [] => false
  | c :: _ => c == '#'

/-- Effect of processing one resolved token: invoke the peripheral with the
current slot and pin cursor, record the instance, append the include line,
and append the library name (NUL terminated) to the ROM image, advancing
`romindx` by the `sprintf` return value. -/
def stepState (st : LoopState) (d : ENUMERATORS) (tok : List Char) : LoopState :=
  let r := d.invoke st.slot st.pin tok
  { st with
    pin := r.2,
    insts := st.insts ++ [{ addr := st.slot, pinStart := st.pin, desc := d, pins := r.1, newPin := r.2 }],
    incs := st.incs ++ [d.incname],
    rom := st.rom ++ strBytes d.libname,
    romindx := st.romindx + (strBytes d.libname).length,
    offs := st.offs ++ [st.romindx + (strBytes d.libname).length] }

/-- One iteration of the driver loop on a token already read by
`fscanf(pdescfile, "%s", peri)`: skip comments; resolve the token (fatal
when the scan reaches `NPERI`); process it; check `romindx > ENUMROMSZ`
(fatal overflow); then advance to the next slot. -/
def procToken (st : LoopState) (tok : List Char) : LoopState × Option BuildErr :=
  if isComment tok then (st, none)
  else
    match lookupD tok with
    | none => (st, some (BuildErr.unknownPeri tok))
    | some d =>
      let st1 := stepState st d tok
      if ENUMROMSZ < st1.romindx then (st1, some BuildErr.romOverflow)
      else ({ st1 with slot := st.slot + 1 }, none)

/-- The `while (1)` loop of `main`: process the token list in order,
stopping at the first fatal condition; on clean end of input the loop exits
(the `EOF` branch, which closes the files and prints the closing
`endmodule` marker). -/
def runBody : List (List Char) → LoopState → LoopState × Option BuildErr
  | [], st => (st, none)
  | tok :: rest, st =>
    match procToken st tok with
    | (st1, none) => runBody rest st1
    | (st1, some e) => (st1, some e)

/-- Loop state after the header phase: slot and pin cursors start at 0, and
the ROM image holds the 8 header lines. -/
def initState (hdr : List (List Char)) : LoopState :=
  { slot := 0, pin := 0, insts := [], incs := [],
    rom := headerRom hdr,
    romindx := (headerRom hdr).length,
    offs := headerOffs hdr 0 }

/-- The whole run on a description file split into its first 8 physical
lines (each as returned by `fgets`, at most `ROMSTRLN - 1` characters) and
the whitespace-delimited tokens read after them.  Fewer than 8 lines is the
fatal "Not enough ROM strings" case. -/
def runDesc (hdr toks : List (List Char)) : LoopState × Option BuildErr :=
  if hdr.length < 8 then (initState (hdr.take 8), some BuildErr.notEnoughROMStrings)
  else runBody toks (initState (hdr.take 8))

/-- The 2048-byte `char rom[ENUMROMSZ]` array: zero-initialized, written
sequentially from offset 0, so it equals the appended content followed by
zero fill. -/
def paddedRom (st : LoopState) : List Nat :=
  st.rom ++ List.replicate (ENUMROMSZ - st.rom.length) 0

/-- Hexadecimal digit character as printed by `%02x` (lowercase). -/
def hexDigit (n : Nat) : Char :=
  if n < 10 then Char.ofNat (48 + n) else Char.ofNat (87 + n)

/-- The two characters `%02x` prints for one ROM byte. -/
def hexByte (b : Nat) : List Char :=
  [hexDigit (b / 16 % 16), hexDigit (b % 16)]

/-- The 32-byte chunk of ROM record `i`: bytes `[32*i, 32*i + 32)`. -/
def chunkOf (rom : List Nat) (i : Nat) : List Nat :=
  (rom.drop (32 * i)).take 32

/-- Hex payload of initialization record `i`: the inner loop
`for (j = 32*(i+1)-1; j >= 32*i; j--) fprintf(penumlst, "%02x", rom[j])`
prints the 32 bytes of chunk `i` in reverse byte order (highest offset
first), two hex characters each. -/
def recordPayload (rom : List Nat) (i : Nat) : List Char :=
  ((chunkOf rom i).reverse).flatMap hexByte

/-- The ROM listing: `for (i = 0; i < 16; i++)` emits exactly the records
`INIT_00 .. INIT_0F`, labelled by their position. -/
def formatROM (rom : List Nat) : List (List Char) :=
  (List.range 16).map (recordPayload rom)

/-- The ROM listing actually produced by a run: it is written only when the
driver loop reaches clean end of input. -/
def finalROMListing (hdr toks : List (List Char)) : Option (List (List Char)) :=
  match (runDesc hdr toks).2 with
  | none => some (formatROM (paddedRom (runDesc hdr toks).1))
  | some _ => none

/-- Whether the closing `endmodule` marker of the wiring stream was
emitted: it is printed exactly in the clean end-of-input branch. -/
def endmoduleEmitted (hdr toks : List (List Char)) : Bool :=
  ((runDesc hdr toks).2).isNone

/-- Modelled from the spec's decode direction ("parsing its hex payload
into 32 bytes, reversing that chunk's byte order"): value of one hex
character. -/
def hexVal (c : Char) : Nat :=
  if 97 ≤ c.toNat then c.toNat - 87 else c.toNat - 48

/-- Modelled from the spec: parse a hex payload two characters per byte. -/
def parseHexPairs : List Char → List Nat
  | c1 :: c2 :: rest => (16 * hexVal c1 + hexVal c2) :: parseHexPairs rest
  | _ => []

/-- Modelled from the spec: decode one record (parse its payload, then undo
the reverse byte order). -/
def decodeRecord (r : List Char) : List Nat :=
  (parseHexPairs r).reverse

/-- Modelled from the spec: decode all records and concatenate the chunks
in order. -/
def decodeROM (recs : List (List Char)) : List Nat :=
  recs.flatMap decodeRecord

/-- Pin count of a registry entry: what its invocation function adds to the
pin cursor. -/
def pinCountOf (d : ENUMERATORS) : Nat :=
  (d.invoke 0 0 []).2

/-- Number of non-comment tokens in a description file. -/
def nonCommentCount (toks : List (List Char)) : Nat :=
  (toks.filter (fun t => !isComment t)).length

/-- The registry entries the non-comment tokens of a file resolve to, in
file order. -/
def resolvedOf (toks : List (List Char)) : List ENUMERATORS :=
  toks.filterMap (fun t => if isComment t then none else lookupD t)

/-- ROM bytes contributed by the driver loop: the library name of each
instance, NUL-terminated, in instance order. -/
def romOfInsts (l : List PeriInstance) : List Nat :=
  l.flatMap (fun inst => strBytes inst.desc.libname)

/-- Same, indexed by registry entries. -/
def romOfDescs (ds : List ENUMERATORS) : List Nat :=
  ds.flatMap (fun d => strBytes d.libname)

/-- Total pin count of a list of registry entries. -/
def cntSum (ds : List ENUMERATORS) : Nat :=
  (ds.map pinCountOf).sum

/-- Total pin count of a list of instances, measured by the pins each
invocation actually assigned. -/
def instPinSum (l : List PeriInstance) : Nat :=
  (l.map (fun inst => inst.pins.length)).sum

/-- The instance a resolved token produces when processed at a given slot
and pin cursor. -/
def mkInst (slot pin : Nat) (d : ENUMERATORS) : PeriInstance :=
  { addr := slot, pinStart := pin, desc := d,
    pins := List.range' pin (pinCountOf d), newPin := pin + pinCountOf d }

/-- The instance list a fully resolved token list produces, starting from a
given slot and pin cursor. -/
def specInsts : List ENUMERATORS → Nat → Nat → List PeriInstance
  | [], _slot, _pin => []
  | d :: ds, slot, pin => mkInst slot pin d :: specInsts ds (slot + 1) (pin + pinCountOf d)

/-- Whether a token list contains a non-comment token that does not resolve
in the registry. -/
def hasUnknown (toks : List (List Char)) : Bool :=
  toks.any (fun t => !isComment t && (lookupD t).isNone)

/-- The first non-comment token of a file that does not resolve. -/
def firstUnknown (toks : List (List Char)) : Option (List Char) :=
  toks.find? (fun t => !isComment t && (lookupD t).isNone)

lemma lookupDFrom_mem {peri : List Char} :
    ∀ {l : List ENUMERATORS} {d : ENUMERATORS}, lookupDFrom peri l = some d → d ∈ l
  | [], d, h => by simp [lookupDFrom] at h
  | e :: rest, d, h => by
    rw [lookupDFrom] at h
    by_cases hc : strncmpEq (PERILEN - 1) peri e.periname
    · rw [if_pos hc] at h
      injection h with h'
      subst h'
      exact List.mem_cons_self _ _
    · rw [if_neg hc] at h
      exact List.mem_cons_of_mem _ (lookupDFrom_mem h)

lemma invoke_eq : ∀ d ∈ enumerators, ∀ (a p : Nat) (s : List Char),
    d.invoke a p s = (List.range' p (pinCountOf d), p + pinCountOf d) := by
  intro d hd
  fin_cases hd <;> intro a p s <;> rfl

lemma pinCountOf_le8 : ∀ d ∈ enumerators, pinCountOf d ≤ 8 := by decide

lemma take_eq_of_lt {n : Nat} {s t : List Char} (ht : t.length < n) :
    s.take n = t ↔ s = t := by
  constructor
  · intro h
    have hlen := congrArg List.length h
    rw [List.length_take] at hlen
    have hs : s.length ≤ n := by omega
    rw [List.take_of_length_le hs] at h
    exact h
  · intro h
    subst h
    exact List.take_of_length_le (by omega)

lemma strncmpEq_exact {peri name : List Char} (h : name.length < PERILEN - 1) :
    strncmpEq (PERILEN - 1) peri name = true ↔ peri = name := by
  have hn : name.take (PERILEN - 1) = name := List.take_of_length_le (by omega)
  rw [strncmpEq, beq_iff_eq, hn]
  exact take_eq_of_lt h

lemma lookupFrom_eq_exactFrom {peri : List Char} :
    ∀ (l : List ENUMERATORS) (i : Nat), (∀ d ∈ l, d.periname.length < PERILEN - 1) →
      lookupFrom peri i l = exactFrom peri i l
  | [], _i, _ => rfl
  | e :: rest, i, h => by
    rw [lookupFrom, exactFrom]
    have he : e.periname.length < PERILEN - 1 := h e (List.mem_cons_self _ _)
    by_cases hc : peri = e.periname
    · rw [if_pos ((strncmpEq_exact he).2 hc), if_pos hc]
    · rw [if_neg (fun hh => hc ((strncmpEq_exact he).1 hh)), if_neg hc]
      exact lookupFrom_eq_exactFrom rest (i + 1) (fun d hd => h d (List.mem_cons_of_mem _ hd))

lemma lookupDFrom_isSome {peri : List Char} :
    ∀ (l : List ENUMERATORS), (∀ d ∈ l, d.periname.length < PERILEN - 1) →
      ((lookupDFrom peri l).isSome ↔ ∃ d ∈ l, peri = d.periname)
  | [], _ => by simp [lookupDFrom]
  | e :: rest, h => by
    rw [lookupDFrom]
    have he : e.periname.length < PERILEN - 1 := h e (List.mem_cons_self _ _)
    by_cases hc : peri = e.periname
    · rw [if_pos ((strncmpEq_exact he).2 hc)]
      simp only [Option.isSome_some, true_iff]
      exact ⟨e, List.mem_cons_self _ _, hc⟩
    · rw [if_neg (fun hh => hc ((strncmpEq_exact he).1 hh))]
      rw [lookupDFrom_isSome rest (fun d hd => h d (List.mem_cons_of_mem _ hd))]
      constructor
      · rintro ⟨d, hd, hpd⟩
        exact ⟨d, List.mem_cons_of_mem _ hd, hpd⟩
      · rintro ⟨d, hd, hpd⟩
        rcases List.mem_cons.1 hd with rfl | hd'
        · exact absurd hpd hc
        · exact ⟨d, hd', hpd⟩

/-- Claim C6: registry lookup is exact-match on the full registered name.
The implemented scan, a compare bounded to the first `PERILEN - 1 = 19`
characters over the registry in table order, returns exactly the index the
exact string-equality scan returns, for every token; and it resolves to a
descriptor if and only if the token is string-equal to the `periname` of
some registry entry, so no token resolves by being a strict prefix or a
strict extension of a registered name. -/
theorem lookup_exact_match : ∀ peri : List Char,
    lookupIdx peri = lookupIdxExact peri
    ∧ ((lookupD peri).isSome ↔ ∃ d ∈ enumerators, peri = d.periname) := by
  intro peri
  have hshort : ∀ d ∈ enumerators, d.periname.length < PERILEN - 1 := by decide
  exact ⟨lookupFrom_eq_exactFrom _ _ hshort, lookupDFrom_isSome _ hshort⟩

lemma runBody_cons_comment {tok : List Char} {rest : List (List Char)} {st : LoopState}
    (h : isComment tok = true) :
    runBody (tok :: rest) st = runBody rest st := by
  rw [runBody, procToken, if_pos h]

lemma runBody_cons_unknown {tok : List Char} {rest : List (List Char)} {st : LoopState}
    (h1 : isComment tok = false) (h2 : lookupD tok = none) :
    runBody (tok :: rest) st = (st, some (BuildErr.unknownPeri tok)) := by
  rw [runBody, procToken, if_neg (by simp [h1]), h2]

lemma runBody_cons_over {tok : List Char} {rest : List (List Char)} {st : LoopState}
    {d : ENUMERATORS} (h1 : isComment tok = false) (h2 : lookupD tok = some d)
    (h3 : ENUMROMSZ < (stepState st d tok).romindx) :
    runBody (tok :: rest) st = (stepState st d tok, some BuildErr.romOverflow) := by
  rw [runBody, procToken, if_neg (by simp [h1]), h2]
  simp only [if_pos h3]

lemma runBody_cons_step {tok : List Char} {rest : List (List Char)} {st : LoopState}
    {d : ENUMERATORS} (h1 : isComment tok = false) (h2 : lookupD tok = some d)
    (h3 : ¬ ENUMROMSZ < (stepState st d tok).romindx) :
    runBody (tok :: rest) st = runBody rest { stepState st d tok with slot := st.slot + 1 } := by
  rw [runBody, procToken, if_neg (by simp [h1]), h2]
  simp only [if_neg h3]

lemma stepState_eq {st : LoopState} {d : ENUMERATORS} {tok : List Char}
    (hd : d ∈ enumerators) :
    stepState st d tok =
      { st with
        pin := st.pin + pinCountOf d,
        insts := st.insts ++ [mkInst st.slot st.pin d],
        incs := st.incs ++ [d.incname],
        rom := st.rom ++ strBytes d.libname,
        romindx := st.romindx + (strBytes d.libname).length,
        offs := st.offs ++ [st.romindx + (strBytes d.libname).length] } := by
  unfold stepState
  rw [invoke_eq d hd]
  rfl

lemma resolvedOf_cons_comment {tok : List Char} {rest : List (List Char)}
    (h : isComment tok = true) : resolvedOf (tok :: rest) = resolvedOf rest := by
  simp [resolvedOf, List.filterMap_cons, h]

lemma resolvedOf_cons_some {tok : List Char} {rest : List (List Char)} {d : ENUMERATORS}
    (h1 : isComment tok = false) (h2 : lookupD tok = some d) :
    resolvedOf (tok :: rest) = d :: resolvedOf rest := by
  simp [resolvedOf, List.filterMap_cons, h1, h2]

lemma nonCommentCount_cons_comment {tok : List Char} {rest : List (List Char)}
    (h : isComment tok = true) : nonCommentCount (tok :: rest) = nonCommentCount rest := by
  simp [nonCommentCount, List.filter_cons, h]

lemma nonCommentCount_cons_tok {tok : List Char} {rest : List (List Char)}
    (h : isComment tok = false) :
    nonCommentCount (tok :: rest) = nonCommentCount rest + 1 := by
  simp [nonCommentCount, List.filter_cons, h]

lemma romOfDescs_cons {d : ENUMERATORS} {ds : List ENUMERATORS} :
    romOfDescs (d :: ds) = strBytes d.libname ++ romOfDescs ds := by
  simp [romOfDescs]

lemma runBody_ok : ∀ (toks : List (List Char)) (st : LoopState),
    (runBody toks st).2 = none →
    (runBody toks st).1.insts = st.insts ++ specInsts (resolvedOf toks) st.slot st.pin
    ∧ (runBody toks st).1.rom = st.rom ++ romOfDescs (resolvedOf toks)
    ∧ (resolvedOf toks).length = nonCommentCount toks
  | [], st, _ => by
    simp [runBody, resolvedOf, nonCommentCount, specInsts, romOfDescs]
  | tok :: rest, st, h => by
    by_cases hcom : isComment tok
    · rw [runBody_cons_comment hcom] at h ⊢
      have ih := runBody_ok rest st h
      rw [resolvedOf_cons_comment hcom, nonCommentCount_cons_comment hcom]
      exact ih
    · rw [Bool.not_eq_true] at hcom
      cases hlk : lookupD tok with
      | none =>
        rw [runBody_cons_unknown hcom hlk] at h
        simp at h
      | some d =>
        have hd : d ∈ enumerators := lookupDFrom_mem hlk
        have hstep : ({ stepState st d tok with slot := st.slot + 1 } : LoopState) =
            { slot := st.slot + 1, pin := st.pin + pinCountOf d,
              insts := st.insts ++ [mkInst st.slot st.pin d],
              incs := st.incs ++ [d.incname],
              rom := st.rom ++ strBytes d.libname,
              romindx := st.romindx + (strBytes d.libname).length,
              offs := st.offs ++ [st.romindx + (strBytes d.libname).length] } := by
          rw [stepState_eq hd]
        by_cases hov : ENUMROMSZ < (stepState st d tok).romindx
        · rw [runBody_cons_over hcom hlk hov] at h
          simp at h
        · rw [runBody_cons_step hcom hlk hov, hstep] at h ⊢
          have ih := runBody_ok rest _ h
          dsimp only at ih
          rw [resolvedOf_cons_some hcom hlk, nonCommentCount_cons_tok hcom]
          refine ⟨?_, ?_, ?_⟩
          · rw [ih.1, specInsts]
            simp
          · rw [ih.2.1, romOfDescs_cons, ← List.append_assoc]
          · simp [ih.2.2]

lemma specInsts_length : ∀ (ds : List ENUMERATORS) (s p : Nat),
    (specInsts ds s p).length = ds.length
  | [], _, _ => rfl
  | d :: ds, s, p => by
    rw [specInsts, List.length_cons, List.length_cons, specInsts_length]

lemma cntSum_cons {d : ENUMERATORS} {ds : List ENUMERATORS} :
    cntSum (d :: ds) = pinCountOf d + cntSum ds := by
  simp [cntSum]

lemma specInsts_getElem : ∀ (ds : List ENUMERATORS) (s p k : Nat) (inst : PeriInstance),
    (specInsts ds s p)[k]? = some inst →
    ∃ d : ENUMERATORS, ds[k]? = some d ∧ inst = mkInst (s + k) (p + cntSum (ds.take k)) d
  | [], _, _, k, inst, h => by simp [specInsts] at h
  | d :: ds, s, p, 0, inst, h => by
    rw [specInsts] at h
    simp only [List.getElem?_cons_zero] at h
    injection h with h'
    refine ⟨d, by simp, ?_⟩
    rw [← h']
    simp [cntSum]
  | d :: ds, s, p, k + 1, inst, h => by
    rw [specInsts] at h
    simp only [List.getElem?_cons_succ] at h
    obtain ⟨d', hd', hinst⟩ := specInsts_getElem ds (s + 1) (p + pinCountOf d) k inst h
    refine ⟨d', by simpa using hd', ?_⟩
    rw [hinst, List.take_succ_cons, cntSum_cons]
    have h1 : s + 1 + k = s + (k + 1) := by omega
    have h2 : p + pinCountOf d + cntSum (ds.take k) = p + (pinCountOf d + cntSum (ds.take k)) := by
      omega
    rw [h1, h2]

lemma specInsts_map_len : ∀ (ds : List ENUMERATORS) (s p : Nat),
    (specInsts ds s p).map (fun inst => inst.pins.length) = ds.map pinCountOf
  | [], _, _ => rfl
  | d :: ds, s, p => by
    rw [specInsts, List.map_cons, List.map_cons, specInsts_map_len]
    congr 1
    simp [mkInst, List.length_range']

lemma instPinSum_take_spec (ds : List ENUMERATORS) (s p k : Nat) :
    instPinSum ((specInsts ds s p).take k) = cntSum (ds.take k) := by
  rw [instPinSum, List.map_take, specInsts_map_len, cntSum, List.map_take]

lemma instPinSum_spec (ds : List ENUMERATORS) (s p : Nat) :
    instPinSum (specInsts ds s p) = cntSum ds := by
  rw [instPinSum, specInsts_map_len, cntSum]

lemma range'_split : ∀ (a s b : Nat),
    List.range' s (a + b) = List.range' s a ++ List.range' (s + a) b
  | 0, s, b => by simp
  | a + 1, s, b => by
    have h1 : a + 1 + b = (a + b) + 1 := by omega
    have h2 : s + 1 + a = s + (a + 1) := by omega
    rw [h1, List.range'_succ, range'_split a (s + 1) b, h2, List.range'_succ, List.cons_append]

lemma specInsts_flat : ∀ (ds : List ENUMERATORS) (s p : Nat),
    (specInsts ds s p).flatMap (fun inst => inst.pins) = List.range' p (cntSum ds)
  | [], _, _ => by simp [specInsts, cntSum]
  | d :: ds, s, p => by
    rw [specInsts, List.flatMap_cons, specInsts_flat, cntSum_cons, range'_split]
    rfl

lemma cntSum_take_succ : ∀ (ds : List ENUMERATORS) (k : Nat) (d : ENUMERATORS),
    ds[k]? = some d → cntSum (ds.take (k + 1)) = cntSum (ds.take k) + pinCountOf d
  | [], k, d, h => by simp at h
  | e :: ds, 0, d, h => by
    simp only [List.getElem?_cons_zero] at h
    injection h with h'
    rw [← h']
    simp [cntSum]
  | e :: ds, k + 1, d, h => by
    simp only [List.getElem?_cons_succ] at h
    rw [List.take_succ_cons, List.take_succ_cons, cntSum_cons, cntSum_cons,
        cntSum_take_succ ds k d h]
    omega

lemma cntSum_take_mono : ∀ (ds : List ENUMERATORS) (a b : Nat), a ≤ b →
    cntSum (ds.take a) ≤ cntSum (ds.take b) := by
  intro ds
  induction ds with
  | nil => intro a b _; simp
  | cons e ds ih =>
    intro a b hab
    cases a with
    | zero =>
      rw [List.take_zero]
      exact Nat.zero_le _
    | succ a' =>
      cases b with
      | zero => omega
      | succ b' =>
        rw [List.take_succ_cons, List.take_succ_cons, cntSum_cons, cntSum_cons]
        have := ih a' b' (by omega)
        omega

lemma specInsts_disjoint_lt {ds : List ENUMERATORS} {i j : Nat} {insti instj : PeriInstance}
    (hij : i < j)
    (hi : (specInsts ds 0 0)[i]? = some insti)
    (hj : (specInsts ds 0 0)[j]? = some instj) :
    ∀ q, q ∈ insti.pins → q ∉ instj.pins := by
  obtain ⟨di, hdi, rfl⟩ := specInsts_getElem _ _ _ _ _ hi
  obtain ⟨dj, hdj, rfl⟩ := specInsts_getElem _ _ _ _ _ hj
  intro q hqi hqj
  simp only [mkInst, List.mem_range'_1] at hqi hqj
  have hsucc := cntSum_take_succ ds i di hdi
  have hmono := cntSum_take_mono ds (i + 1) j hij
  omega

/-- The allocation invariants of a run: exactly the non-comment tokens
become instances; instance `k` has address `k`; its pin cursor is the sum
of the pin counts of the instances before it; its pins are the contiguous
block of its width starting at its cursor; distinct instances have
disjoint pin ranges; and the ordered union of all pin ranges is
`0 .. total - 1`. -/
def AllocationOK (hdr toks : List (List Char)) : Prop :=
  (runDesc hdr toks).1.insts.length = nonCommentCount toks
  ∧ (∀ k inst, (runDesc hdr toks).1.insts[k]? = some inst →
      inst.addr = k
      ∧ inst.pinStart = instPinSum ((runDesc hdr toks).1.insts.take k)
      ∧ inst.pins = List.range' inst.pinStart inst.pins.length)
  ∧ (∀ (i j : Nat) (insti instj : PeriInstance), i ≠ j →
      (runDesc hdr toks).1.insts[i]? = some insti →
      (runDesc hdr toks).1.insts[j]? = some instj →
      ∀ q, q ∈ insti.pins → q ∉ instj.pins)
  ∧ (runDesc hdr toks).1.insts.flatMap (fun inst => inst.pins)
      = List.range (instPinSum (runDesc hdr toks).1.insts)

/-- Claim C1: for every description file whose run completes, exactly the
non-comment tokens become peripheral instances, instance `k` (0-based, in
file order) is invoked with address `k`, its pin cursor equals the sum of
the pin counts of instances `0..k-1`, each instance's pins are the
contiguous block of that width starting at its pin cursor, the pin ranges
of distinct instances are disjoint, and their ordered union is the
contiguous range `0 .. total - 1`. -/
theorem allocation_invariants : ∀ (hdr toks : List (List Char)),
    (runDesc hdr toks).2 = none → AllocationOK hdr toks := by
  intro hdr toks h
  unfold AllocationOK
  by_cases h8 : hdr.length < 8
  · rw [runDesc, if_pos h8] at h
    simp at h
  · rw [runDesc, if_neg h8] at h ⊢
    obtain ⟨hinsts, hrom, hcount⟩ := runBody_ok toks (initState (hdr.take 8)) h
    have e1 : (initState (hdr.take 8)).insts = [] := rfl
    have e2 : (initState (hdr.take 8)).slot = 0 := rfl
    have e3 : (initState (hdr.take 8)).pin = 0 := rfl
    rw [e1, e2, e3, List.nil_append] at hinsts
    rw [hinsts]
    refine ⟨?_, ?_, ?_, ?_⟩
    · rw [specInsts_length, hcount]
    · intro k inst hk
      obtain ⟨d, hd, rfl⟩ := specInsts_getElem _ _ _ _ _ hk
      refine ⟨by simp [mkInst], ?_, by simp [mkInst, List.length_range']⟩
      rw [instPinSum_take_spec]
      simp [mkInst]
    · intro i j insti instj hij hi hj
      rcases Nat.lt_or_ge i j with hlt | hge
      · exact specInsts_disjoint_lt hlt hi hj
      · have hlt : j < i := by omega
        intro q hqi hqj
        exact specInsts_disjoint_lt hlt hj hi q hqj hqi
    · rw [specInsts_flat, instPinSum_spec, List.range_eq_range']

/-- Scenario input for the allocation witness: 8 one-character header lines
and the tokens `servo4` then `null`. -/
def hdrW : List (List Char) := List.replicate 8 ['x', '\n']

/-- Tokens of the allocation witness scenario. -/
def toksW : List (List Char) := ["servo4".toList, "null".toList]

/-- Witness for claim C1: the scenario run completes and satisfies the
allocation invariants. -/
theorem allocation_invariants_witness :
    (runDesc hdrW toksW).2 = none ∧ AllocationOK hdrW toksW :=
  ⟨by decide, allocation_invariants hdrW toksW (by decide)⟩

/-- Claim C7: for every registered peripheral type and every address, pin
cursor and name string, the invocation function returns
`pinCursor + pinCount` where `pinCount` is a fixed constant of the type —
independent of address, pin cursor and name string — lying between 0 and 8
inclusive, and the external pin assignments it emits cover exactly the
contiguous pin indices `pinCursor .. pinCursor + pinCount - 1`; in
particular the enumerator (`perilist`), `bb4io` and `null` types return
`pinCursor + 0`. -/
theorem emit_pin_contract : ∀ (i : Fin enumerators.length) (a p : Nat) (s : List Char),
    (enumerators.get i).invoke a p s
      = (List.range' p (pinCountOf (enumerators.get i)),
         p + pinCountOf (enumerators.get i))
    ∧ pinCountOf (enumerators.get i) ≤ 8
    ∧ (perilist a p s).2 = p + 0
    ∧ (bb4io a p s).2 = p + 0
    ∧ (null a p s).2 = p := by
  intro i a p s
  exact ⟨invoke_eq _ (List.get_mem enumerators i.1 i.2) a p s,
         pinCountOf_le8 _ (List.get_mem enumerators i.1 i.2), rfl, rfl, rfl⟩

/-- Claim C9 (implicit): when a header line is read, the packer
unconditionally deletes the last character of the string actually read,
whether or not that character is a line terminator: for every line
`l ++ [c]` the bytes placed in the ROM are the characters of `l`
(NUL-terminated), the same as for `l ++ [newline]`; so a header line
arriving without a trailing newline has its final content character
removed. -/
theorem header_strips_last_char : ∀ (l : List Char) (c : Char),
    headerLineBytes (l ++ [c]) = l.map charByte ++ [0]
    ∧ headerLineBytes (l ++ [c]) = headerLineBytes (l ++ ['\n']) := by
  intro l c
  constructor
  · rw [headerLineBytes, List.dropLast_concat]
    rfl
  · rw [headerLineBytes, headerLineBytes, List.dropLast_concat, List.dropLast_concat]

lemma headerLineBytes_len {l : List Char} (h : l.length ≤ ROMSTRLN - 1) :
    (headerLineBytes l).length ≤ ROMSTRLN - 1 := by
  have h2 : (headerLineBytes l).length = l.length - 1 + 1 := by
    simp [headerLineBytes, strBytes]
  simp only [ROMSTRLN] at h ⊢
  omega

lemma headerRom_len_le : ∀ (hdr : List (List Char)),
    (∀ l ∈ hdr, l.length ≤ ROMSTRLN - 1) →
    (headerRom hdr).length ≤ (ROMSTRLN - 1) * hdr.length
  | [], _ => by simp [headerRom]
  | l :: rest, h => by
    rw [headerRom, List.flatMap_cons, List.length_append, ← headerRom]
    have h1 := headerLineBytes_len (h l (List.mem_cons_self _ _))
    have h2 := headerRom_len_le rest (fun x hx => h x (List.mem_cons_of_mem _ hx))
    rw [List.length_cons]
    have h3 : (ROMSTRLN - 1) * (rest.length + 1)
        = (ROMSTRLN - 1) * rest.length + (ROMSTRLN - 1) := by ring
    omega

/-- Claim C10 (implicit): the 8 header-line appends are performed without
any capacity check, but they alone can never exceed the ROM capacity: each
`fgets` read yields at most `ROMSTRLN - 1 = 255` characters, one character
is stripped and a NUL appended, so each append writes at most 255 bytes
and after all 8 header appends the ROM write offset is at most 2040,
strictly below the 2048-byte capacity, for every input file. -/
theorem header_fits_capacity : ∀ (hdr : List (List Char)),
    hdr.length = 8 → (∀ l ∈ hdr, l.length ≤ ROMSTRLN - 1) →
    (initState hdr).romindx ≤ 2040 ∧ 2040 < ENUMROMSZ := by
  intro hdr h8 hl
  have h1 := headerRom_len_le hdr hl
  rw [h8] at h1
  refine ⟨?_, by decide⟩
  have h2 : (initState hdr).romindx = (headerRom hdr).length := rfl
  have h3 : (ROMSTRLN - 1) * 8 = 2040 := by decide
  omega

/-- Witness for claim C10 at the scenario header lines. -/
theorem header_fits_capacity_witness :
    hdrW.length = 8 ∧ (∀ l ∈ hdrW, l.length ≤ ROMSTRLN - 1)
    ∧ ((initState hdrW).romindx ≤ 2040 ∧ 2040 < ENUMROMSZ) :=
  ⟨by decide, by decide, header_fits_capacity hdrW (by decide) (by decide)⟩

lemma runBody_romindx : ∀ (toks : List (List Char)) (st : LoopState),
    st.romindx = st.rom.length →
    (runBody toks st).1.romindx = (runBody toks st).1.rom.length
  | [], _st, h => h
  | tok :: rest, st, h => by
    by_cases hcom : isComment tok
    · rw [runBody_cons_comment hcom]
      exact runBody_romindx rest st h
    · rw [Bool.not_eq_true] at hcom
      cases hlk : lookupD tok with
      | none =>
        rw [runBody_cons_unknown hcom hlk]
        exact h
      | some d =>
        have hst1 : (stepState st d tok).romindx = (stepState st d tok).rom.length := by
          have e1 : (stepState st d tok).romindx
              = st.romindx + (strBytes d.libname).length := rfl
          have e2 : (stepState st d tok).rom = st.rom ++ strBytes d.libname := rfl
          rw [e1, e2, List.length_append, h]
        by_cases hov : ENUMROMSZ < (stepState st d tok).romindx
        · rw [runBody_cons_over hcom hlk hov]
          exact hst1
        · rw [runBody_cons_step hcom hlk hov]
          exact runBody_romindx rest _ hst1

lemma runBody_le : ∀ (toks : List (List Char)) (st : LoopState),
    st.romindx ≤ ENUMROMSZ → (runBody toks st).2 = none →
    (runBody toks st).1.romindx ≤ ENUMROMSZ
  | [], _st, h, _ => h
  | tok :: rest, st, h, hok => by
    by_cases hcom : isComment tok
    · rw [runBody_cons_comment hcom] at hok ⊢
      exact runBody_le rest st h hok
    · rw [Bool.not_eq_true] at hcom
      cases hlk : lookupD tok with
      | none =>
        rw [runBody_cons_unknown hcom hlk] at hok
        simp at hok
      | some d =>
        by_cases hov : ENUMROMSZ < (stepState st d tok).romindx
        · rw [runBody_cons_over hcom hlk hov] at hok
          simp at hok
        · rw [runBody_cons_step hcom hlk hov] at hok ⊢
          exact runBody_le rest _ (Nat.le_of_not_lt hov) hok

/-- The 8 header lines of a description file whose logical line contents
are `content` (each line is its content followed by the `\n` terminator
`fgets` keeps). -/
def headerLines (content : List (List Char)) : List (List Char) :=
  content.map (fun l => l ++ ['\n'])

lemma headerRom_headerLines : ∀ (content : List (List Char)),
    headerRom (headerLines content) = content.flatMap strBytes
  | [] => rfl
  | l :: rest => by
    rw [headerLines, List.map_cons, headerRom, List.flatMap_cons, List.flatMap_cons]
    congr 1
    · rw [headerLineBytes, List.dropLast_concat]
    · exact headerRom_headerLines rest

lemma romOfInsts_spec : ∀ (ds : List ENUMERATORS) (s p : Nat),
    romOfInsts (specInsts ds s p) = romOfDescs ds
  | [], _, _ => rfl
  | d :: ds, s, p => by
    rw [specInsts, romOfInsts, List.flatMap_cons, ← romOfInsts, romOfInsts_spec,
        romOfDescs_cons]
    rfl

/-- The ROM image layout after a completed run: the 8 header-line contents
(terminator stripped), each NUL-terminated, in file order; then the
library name of each resolved instance, NUL-terminated, in instance order;
then zero fill up to offset 2047. -/
def RomLayoutOK (content toks : List (List Char)) : Prop :=
  paddedRom (runDesc (headerLines content) toks).1
    = content.flatMap strBytes
      ++ romOfInsts (runDesc (headerLines content) toks).1.insts
      ++ List.replicate
          (ENUMROMSZ - (content.flatMap strBytes
            ++ romOfInsts (runDesc (headerLines content) toks).1.insts).length) 0
  ∧ (paddedRom (runDesc (headerLines content) toks).1).length = ENUMROMSZ

/-- Claim C2: after processing completes, the ROM byte buffer consists of
the 8 header lines with trailing terminator stripped, each followed by a
NUL byte, in file order; immediately followed by the `libname` of each
resolved instance, each followed by a NUL byte, in instance order; with
every remaining byte up to offset 2047 equal to zero. -/
theorem rom_layout : ∀ (content toks : List (List Char)),
    content.length = 8 →
    (∀ l ∈ content, l.length + 1 ≤ ROMSTRLN - 1) →
    (runDesc (headerLines content) toks).2 = none →
    RomLayoutOK content toks := by
  intro content toks h8 hlen hok
  have hhdr8 : (headerLines content).length = 8 := by
    rw [headerLines, List.length_map, h8]
  have htake : (headerLines content).take 8 = headerLines content :=
    List.take_of_length_le (by omega)
  have hinit : (initState ((headerLines content).take 8)).romindx ≤ ENUMROMSZ := by
    have hb := headerRom_len_le (headerLines content) (by
      intro l hl
      rw [headerLines, List.mem_map] at hl
      obtain ⟨x, hx, rfl⟩ := hl
      have := hlen x hx
      simp only [List.length_append, List.length_cons, List.length_nil]
      omega)
    rw [hhdr8] at hb
    have e1 : (initState ((headerLines content).take 8)).romindx
        = (headerRom ((headerLines content).take 8)).length := rfl
    rw [e1, htake]
    have h3 : (ROMSTRLN - 1) * 8 = 2040 := by decide
    have h4 : (2040 : Nat) ≤ ENUMROMSZ := by decide
    omega
  unfold RomLayoutOK
  rw [runDesc, if_neg (by omega)] at hok ⊢
  obtain ⟨hinsts, hrom, _hcount⟩ := runBody_ok toks (initState ((headerLines content).take 8)) hok
  have e1 : (initState ((headerLines content).take 8)).insts = [] := rfl
  have e2 : (initState ((headerLines content).take 8)).slot = 0 := rfl
  have e3 : (initState ((headerLines content).take 8)).pin = 0 := rfl
  have e4 : (initState ((headerLines content).take 8)).rom
      = headerRom ((headerLines content).take 8) := rfl
  rw [e1, e2, e3, List.nil_append] at hinsts
  have e5 : headerRom ((headerLines content).take 8) = content.flatMap strBytes := by
    rw [htake, headerRom_headerLines]
  rw [e4, e5] at hrom
  have hlenle : (runBody toks (initState ((headerLines content).take 8))).1.rom.length
      ≤ ENUMROMSZ := by
    rw [← runBody_romindx toks _ rfl]
    exact runBody_le toks _ hinit hok
  have hcontent :
      (runBody toks (initState ((headerLines content).take 8))).1.rom
        = content.flatMap strBytes
          ++ romOfInsts (runBody toks (initState ((headerLines content).take 8))).1.insts := by
    rw [hrom, hinsts, romOfInsts_spec]
  constructor
  · rw [paddedRom, hcontent, List.append_assoc]
  · rw [paddedRom, List.length_append, List.length_replicate]
    omega

/-- Logical header contents of the ROM-layout witness scenario. -/
def contentW : List (List Char) := List.replicate 8 ['x']

/-- Tokens of the ROM-layout witness scenario. -/
def toksN : List (List Char) := ["null".toList]

/-- Witness for claim C2 on a small complete run. -/
theorem rom_layout_witness :
    contentW.length = 8
    ∧ (∀ l ∈ contentW, l.length + 1 ≤ ROMSTRLN - 1)
    ∧ (runDesc (headerLines contentW) toksN).2 = none
    ∧ RomLayoutOK contentW toksN :=
  ⟨by decide, by decide, by decide,
   rom_layout contentW toksN (by decide) (by decide) (by decide)⟩

lemma paddedRom_ge (st : LoopState) : ENUMROMSZ ≤ (paddedRom st).length := by
  rw [paddedRom, List.length_append, List.length_replicate]
  omega

lemma flatMap_hexByte_len : ∀ (l : List Nat), (l.flatMap hexByte).length = 2 * l.length
  | [] => rfl
  | b :: rest => by
    rw [List.flatMap_cons, List.length_append, flatMap_hexByte_len]
    have h2 : (hexByte b).length = 2 := rfl
    rw [h2, List.length_cons]
    omega

/-- Claim C5: every execution that reaches ROM formatting emits exactly 16
labelled records, and the hex payload of every record is exactly 64
characters (two per byte for the 32 bytes of its chunk), regardless of the
byte values stored in the ROM buffer. -/
theorem listing_shape : ∀ (hdr toks : List (List Char)),
    (runDesc hdr toks).2 = none →
    finalROMListing hdr toks = some (formatROM (paddedRom (runDesc hdr toks).1))
    ∧ (formatROM (paddedRom (runDesc hdr toks).1)).length = 16
    ∧ ∀ r ∈ formatROM (paddedRom (runDesc hdr toks).1), r.length = 64 := by
  intro hdr toks h
  refine ⟨?_, ?_, ?_⟩
  · rw [finalROMListing, h]
  · rw [formatROM, List.length_map, List.length_range]
  · intro r hr
    rw [formatROM] at hr
    obtain ⟨i, hi, rfl⟩ := List.mem_map.1 hr
    rw [List.mem_range] at hi
    have hlen := paddedRom_ge (runDesc hdr toks).1
    simp only [ENUMROMSZ] at hlen
    have hchunk : (chunkOf (paddedRom (runDesc hdr toks).1) i).length = 32 := by
      rw [chunkOf, List.length_take, List.length_drop]
      omega
    rw [recordPayload, flatMap_hexByte_len, List.length_reverse, hchunk]

/-- Witness for claim C5 on a completed run. -/
theorem listing_shape_witness :
    (runDesc hdrW toksW).2 = none
    ∧ (finalROMListing hdrW toksW = some (formatROM (paddedRom (runDesc hdrW toksW).1))
       ∧ (formatROM (paddedRom (runDesc hdrW toksW).1)).length = 16
       ∧ ∀ r ∈ formatROM (paddedRom (runDesc hdrW toksW).1), r.length = 64) :=
  ⟨by decide, listing_shape hdrW toksW (by decide)⟩

lemma hexVal_hexDigit : ∀ n < 16, hexVal (hexDigit n) = n := by decide

lemma parse_flatMap : ∀ (l : List Nat), (∀ b ∈ l, b < 256) →
    parseHexPairs (l.flatMap hexByte) = l
  | [], _ => rfl
  | b :: rest, h => by
    rw [List.flatMap_cons]
    have hb : b < 256 := h b (List.mem_cons_self _ _)
    show parseHexPairs
        (hexDigit (b / 16 % 16) :: hexDigit (b % 16) :: rest.flatMap hexByte) = b :: rest
    rw [parseHexPairs, parse_flatMap rest (fun x hx => h x (List.mem_cons_of_mem _ hx))]
    congr 1
    rw [hexVal_hexDigit _ (Nat.mod_lt _ (by omega)), hexVal_hexDigit _ (Nat.mod_lt _ (by omega))]
    omega

lemma decode_record_payload {rom : List Nat} (hb : ∀ b ∈ rom, b < 256) (i : Nat) :
    decodeRecord (recordPayload rom i) = chunkOf rom i := by
  rw [recordPayload, decodeRecord, parse_flatMap, List.reverse_reverse]
  intro b hbmem
  rw [List.mem_reverse, chunkOf] at hbmem
  exact hb b ((List.drop_sublist _ _).subset ((List.take_sublist _ _).subset hbmem))

lemma chunks_concat : ∀ (n : Nat) (rom : List Nat), 32 * n ≤ rom.length →
    (List.range n).flatMap (fun i => (rom.drop (32 * i)).take 32) = rom.take (32 * n)
  | 0, rom, _ => by simp
  | n + 1, rom, h => by
    rw [List.range_succ_eq_map, List.flatMap_cons, List.flatMap_map]
    have hshift : (List.range n).flatMap (fun i => (rom.drop (32 * Nat.succ i)).take 32)
        = (List.range n).flatMap (fun i => ((rom.drop 32).drop (32 * i)).take 32) := by
      congr 1
      funext i
      rw [List.drop_drop]
      congr 2
      omega
    rw [hshift, chunks_concat n (rom.drop 32) (by rw [List.length_drop]; omega)]
    have h32 : 32 * (n + 1) = 32 + 32 * n := by omega
    rw [h32, List.take_add, Nat.mul_zero, List.drop_zero]

/-- Round-trip behaviour of the emitted listing: decoding the 16 records
(parsing each payload two hex characters per byte, undoing the reverse
byte order, concatenating chunks in order) reproduces exactly the first
`16 * 32 = 512` bytes of the ROM buffer, and record `i` decodes to bytes
`[32*i, 32*i + 32)`. -/
def Roundtrip512 (rom : List Nat) : Prop :=
  decodeROM (formatROM rom) = rom.take 512
  ∧ ∀ i < 16, decodeRecord ((formatROM rom).getD i []) = (rom.drop (32 * i)).take 32

/-- Claim C4, amended: the listing covers only the first 512 bytes of the
2048-byte buffer (16 records of 32 bytes), so the decode reproduces
`rom.take 512`, not the whole buffer; per record the decode is exact. -/
lemma decodeROM_formatROM {rom : List Nat} (hlen : rom.length = 2048)
    (hb : ∀ b ∈ rom, b < 256) : decodeROM (formatROM rom) = rom.take 512 := by
  rw [decodeROM, formatROM, List.flatMap_map]
  have hcongr : (List.range 16).flatMap (fun i => decodeRecord (recordPayload rom i))
      = (List.range 16).flatMap (fun i => (rom.drop (32 * i)).take 32) := by
    congr 1
    funext i
    rw [decode_record_payload hb i, chunkOf]
  rw [hcongr, chunks_concat 16 rom (by omega)]

theorem roundtrip_first_512 : ∀ (rom : List Nat),
    rom.length = 2048 → (∀ b ∈ rom, b < 256) → Roundtrip512 rom := by
  intro rom hlen hb
  constructor
  · exact decodeROM_formatROM hlen hb
  · intro i hi
    have hget : (formatROM rom).getD i [] = recordPayload rom i := by
      rw [formatROM, List.getD_eq_getElem?_getD, List.getElem?_map,
          List.getElem?_range hi]
      rfl
    rw [hget, decode_record_payload hb i, chunkOf]

/-- Counterexample to claim C4 as stated: for the 2048-byte buffer whose
bytes are all 1, decoding the 16 records does not reproduce the buffer —
the listing only covers offsets 0..511, so the decode has length 512. -/
theorem roundtrip_full_buffer_cex :
    (List.replicate 2048 1).length = 2048
    ∧ (∀ b ∈ List.replicate 2048 1, b < 256)
    ∧ decodeROM (formatROM (List.replicate 2048 1)) ≠ List.replicate 2048 1 := by
  refine ⟨List.length_replicate 2048 1, ?_, ?_⟩
  · intro b hbmem
    rw [List.eq_of_mem_replicate hbmem]
    omega
  · rw [decodeROM_formatROM (List.length_replicate 2048 1)
      (fun b hbmem => by rw [List.eq_of_mem_replicate hbmem]; omega)]
    intro hcontra
    have h1 := congrArg List.length hcontra
    rw [List.length_take, List.length_replicate] at h1
    omega

/-- Witness for the amended claim C4 at a concrete all-zero buffer. -/
theorem roundtrip_first_512_witness :
    (List.replicate 2048 0).length = 2048
    ∧ (∀ b ∈ List.replicate 2048 0, b < 256)
    ∧ Roundtrip512 (List.replicate 2048 0) :=
  ⟨List.length_replicate 2048 0,
   fun b hbmem => by rw [List.eq_of_mem_replicate hbmem]; omega,
   roundtrip_first_512 _ (List.length_replicate 2048 0)
     (fun b hbmem => by rw [List.eq_of_mem_replicate hbmem]; omega)⟩

lemma finalROMListing_none {hdr toks : List (List Char)}
    (h : (runDesc hdr toks).2 ≠ none) : finalROMListing hdr toks = none := by
  cases he : (runDesc hdr toks).2 with
  | none => exact absurd he h
  | some e => rw [finalROMListing, he]

lemma headerOffs_le_total : ∀ (lines : List (List Char)) (off : Nat),
    ∀ o ∈ headerOffs lines off, o ≤ off + (headerRom lines).length
  | [], _, o, ho => by simp [headerOffs] at ho
  | l :: rest, off, o, ho => by
    rw [headerOffs] at ho
    rw [headerRom, List.flatMap_cons, List.length_append, ← headerRom]
    rcases List.mem_cons.1 ho with rfl | ho'
    · omega
    · have := headerOffs_le_total rest (off + (headerLineBytes l).length) o ho'
      omega

lemma runBody_offs : ∀ (toks : List (List Char)) (st : LoopState),
    (∀ o ∈ st.offs, o ≤ ENUMROMSZ) →
    ∀ k o, (runBody toks st).1.offs[k]? = some o → ENUMROMSZ < o →
      k + 1 = (runBody toks st).1.offs.length ∧ (runBody toks st).2 ≠ none
  | [], st, hinv, k, o, hk, ho => by
    rw [runBody] at hk
    exact absurd (hinv o (List.getElem?_mem hk)) (by omega)
  | tok :: rest, st, hinv, k, o, hk, ho => by
    by_cases hcom : isComment tok
    · rw [runBody_cons_comment hcom] at hk ⊢
      exact runBody_offs rest st hinv k o hk ho
    · rw [Bool.not_eq_true] at hcom
      cases hlk : lookupD tok with
      | none =>
        rw [runBody_cons_unknown hcom hlk] at hk
        exact absurd (hinv o (List.getElem?_mem hk)) (by omega)
      | some d =>
        have hoffs : (stepState st d tok).offs
            = st.offs ++ [st.romindx + (strBytes d.libname).length] := rfl
        by_cases hov : ENUMROMSZ < (stepState st d tok).romindx
        · rw [runBody_cons_over hcom hlk hov] at hk ⊢
          refine ⟨?_, by simp⟩
          rw [hoffs] at hk ⊢
          rw [List.length_append, List.length_cons, List.length_nil]
          rcases Nat.lt_trichotomy k st.offs.length with hlt | heq | hgt
          · rw [List.getElem?_append, if_pos hlt] at hk
            exact absurd (hinv o (List.getElem?_mem hk)) (by omega)
          · omega
          · rw [List.getElem?_append, if_neg (by omega),
                List.getElem?_eq_none (by simp; omega)] at hk
            simp at hk
        · rw [runBody_cons_step hcom hlk hov] at hk ⊢
          refine runBody_offs rest _ ?_ k o hk ho
          intro o' ho'
          have ho'' : o' ∈ st.offs ++ [st.romindx + (strBytes d.libname).length] := ho'
          rcases List.mem_append.1 ho'' with hmem | hmem
          · exact hinv o' hmem
          · rw [List.mem_singleton] at hmem
            subst hmem
            exact Nat.le_of_not_lt hov

/-- Claim C3: an execution in which the running ROM offset exceeds the
2048-byte capacity immediately after any single append never proceeds to a
further append or to ROM formatting: the offending append is the last one
recorded, the run aborts with an error (non-zero exit), and no ROM listing
is produced.  The header appends carry no explicit check in the source,
but under the `fgets` bound they can never exceed the capacity, so
behaviour is identical to checking after every append; each
driver-identifier append is followed by the explicit
`romindx > ENUMROMSZ` check. -/
theorem overflow_abort_trace : ∀ (hdr toks : List (List Char)),
    hdr.length = 8 → (∀ l ∈ hdr, l.length ≤ ROMSTRLN - 1) →
    ∀ k o, (runDesc hdr toks).1.offs[k]? = some o → ENUMROMSZ < o →
      k + 1 = (runDesc hdr toks).1.offs.length
      ∧ (runDesc hdr toks).2 ≠ none
      ∧ finalROMListing hdr toks = none := by
  intro hdr toks h8 hl k o hk ho
  have hnlt : ¬ hdr.length < 8 := by omega
  rw [runDesc, if_neg hnlt] at hk ⊢
  have htake : hdr.take 8 = hdr := List.take_of_length_le (by omega)
  have hinv : ∀ o' ∈ (initState (hdr.take 8)).offs, o' ≤ ENUMROMSZ := by
    intro o' ho'
    have e1 : (initState (hdr.take 8)).offs = headerOffs (hdr.take 8) 0 := rfl
    rw [e1, htake] at ho'
    have hb := headerOffs_le_total hdr 0 o' ho'
    have hr := headerRom_len_le hdr hl
    rw [h8] at hr
    have h3 : (ROMSTRLN - 1) * 8 = 2040 := by decide
    have h4 : (2040 : Nat) < ENUMROMSZ := by decide
    omega
  obtain ⟨h1, h2⟩ := runBody_offs toks _ hinv k o hk ho
  refine ⟨h1, h2, ?_⟩
  apply finalROMListing_none
  rw [runDesc, if_neg hnlt]
  exact h2

/-- Header lines of the overflow scenario: 8 empty lines (newline only). -/
def hdr8 : List (List Char) := List.replicate 8 ['\n']

/-- Token list of the overflow scenario: 186 copies of `enumerator`
(8 + 186 * 11 = 2054 ROM bytes, overflowing at the 186th instance) followed
by an unknown token that is never reached. -/
def ovToks : List (List Char) :=
  List.replicate 186 ("enumerator".toList) ++ ["nosuch".toList]

/-- Witness for claim C3: in the overflow scenario the append recorded at
trace position 193 leaves the offset at 2054 > 2048; it is the last
recorded append, the run aborts, and no ROM listing is produced. -/
theorem overflow_abort_trace_witness :
    hdr8.length = 8 ∧ (∀ l ∈ hdr8, l.length ≤ ROMSTRLN - 1)
    ∧ (runDesc hdr8 ovToks).1.offs[193]? = some 2054 ∧ ENUMROMSZ < 2054
    ∧ (193 + 1 = (runDesc hdr8 ovToks).1.offs.length
       ∧ (runDesc hdr8 ovToks).2 ≠ none
       ∧ finalROMListing hdr8 ovToks = none) :=
  ⟨by decide, by decide, by decide, by decide,
   overflow_abort_trace hdr8 ovToks (by decide) (by decide) 193 2054 (by decide) (by decide)⟩

lemma runBody_unknown : ∀ (toks : List (List Char)) (st : LoopState),
    hasUnknown toks = true →
    (runBody toks st).2 = some BuildErr.romOverflow
    ∨ ∃ t, firstUnknown toks = some t
        ∧ (runBody toks st).2 = some (BuildErr.unknownPeri t)
  | [], _st, h => by simp [hasUnknown] at h
  | tok :: rest, st, h => by
    by_cases hcom : isComment tok
    · rw [runBody_cons_comment hcom]
      have h' : hasUnknown rest = true := by
        rw [hasUnknown, List.any_cons, hcom] at h
        simpa [hasUnknown] using h
      have hfu : firstUnknown (tok :: rest) = firstUnknown rest := by
        rw [firstUnknown, List.find?_cons, hcom]
        rfl
      rw [hfu]
      exact runBody_unknown rest st h'
    · rw [Bool.not_eq_true] at hcom
      cases hlk : lookupD tok with
      | none =>
        rw [runBody_cons_unknown hcom hlk]
        right
        refine ⟨tok, ?_, rfl⟩
        rw [firstUnknown, List.find?_cons, hcom, hlk]
        rfl
      | some d =>
        have hpred : (!isComment tok && (lookupD tok).isNone) = false := by
          rw [hcom, hlk]
          rfl
        have h' : hasUnknown rest = true := by
          rw [hasUnknown, List.any_cons, hpred] at h
          simpa [hasUnknown] using h
        have hfu : firstUnknown (tok :: rest) = firstUnknown rest := by
          rw [firstUnknown, List.find?_cons, hpred]
          rfl
        by_cases hov : ENUMROMSZ < (stepState st d tok).romindx
        · rw [runBody_cons_over hcom hlk hov]
          left
          rfl
        · rw [runBody_cons_step hcom hlk hov, hfu]
          exact runBody_unknown rest _ h'

/-- Abort behaviour when a description file contains an unresolvable
non-comment token: the run never completes (non-zero exit), the closing
`endmodule` marker of the wiring stream is never emitted, the 16-record
ROM listing is never produced, and the reported error is either the
"Unknown peripheral" abort naming the first unresolvable token or a ROM
overflow abort raised at an earlier instance. -/
def UnknownAborts (hdr toks : List (List Char)) : Prop :=
  (runDesc hdr toks).2 ≠ none
  ∧ endmoduleEmitted hdr toks = false
  ∧ finalROMListing hdr toks = none
  ∧ ((runDesc hdr toks).2 = some BuildErr.romOverflow
     ∨ ∃ t, firstUnknown toks = some t
         ∧ (runDesc hdr toks).2 = some (BuildErr.unknownPeri t))

/-- Claim C8, amended: for every description file (8 header lines plus
tokens) containing a non-comment token that does not resolve in the
registry, the run aborts with a non-zero exit status before the wiring
stream's closing marker or the ROM listing is produced; the abort names
the first unresolvable token unless a ROM-overflow abort occurs at an
earlier instance, in which case the overflow is reported instead. -/
theorem unknown_token_aborts : ∀ (hdr toks : List (List Char)),
    hdr.length = 8 → hasUnknown toks = true → UnknownAborts hdr toks := by
  intro hdr toks h8 hu
  have hnlt : ¬ hdr.length < 8 := by omega
  have hdisj := runBody_unknown toks (initState (hdr.take 8)) hu
  have h2 : (runDesc hdr toks).2 = some BuildErr.romOverflow
      ∨ ∃ t, firstUnknown toks = some t
          ∧ (runDesc hdr toks).2 = some (BuildErr.unknownPeri t) := by
    rw [runDesc, if_neg hnlt]
    exact hdisj
  have hne : (runDesc hdr toks).2 ≠ none := by
    rcases h2 with h2 | ⟨t, _, h2⟩ <;> rw [h2] <;> simp
  refine ⟨hne, ?_, finalROMListing_none hne, h2⟩
  rw [endmoduleEmitted]
  cases he : (runDesc hdr toks).2 with
  | none => exact absurd he hne
  | some e => rfl

/-- Counterexample to claim C8 as stated: the overflow scenario file
contains the unresolvable non-comment token `nosuch`, yet the run aborts
with the ROM-overflow error raised at an earlier instance — the abort does
not name the offending token. -/
theorem unknown_token_overflow_preempts :
    hasUnknown ovToks = true
    ∧ (runDesc hdr8 ovToks).2 = some BuildErr.romOverflow
    ∧ ∀ t, (runDesc hdr8 ovToks).2 ≠ some (BuildErr.unknownPeri t) := by
  refine ⟨by decide, by decide, ?_⟩
  intro t h
  rw [show (runDesc hdr8 ovToks).2 = some BuildErr.romOverflow from by decide] at h
  exact BuildErr.noConfusion (Option.some.inj h)

/-- Tokens of the unknown-token witness scenario: a single unresolvable
token. -/
def toksU : List (List Char) := ["nosuch".toList]

/-- Witness for the amended claim C8: a file whose only token is unknown
aborts naming it, with no closing marker and no ROM listing. -/
theorem unknown_token_aborts_witness :
    hdrW.length = 8 ∧ hasUnknown toksU = true ∧ UnknownAborts hdrW toksU :=
  ⟨by decide, by decide, unknown_token_aborts hdrW toksU (by decide) (by decide)⟩

end DPCore
